import Mathlib

/-!
Verification of the Poisson-process simulation and chi-square validation
program (`lab2.ipynb`).

The Python code is shallowly embedded over `ℝ`:

* uniform draws `np.random.uniform()` become an explicit stream `u : ℕ → ℝ`
  of values in `[0, 1)`, consumed in program order;
* the unbounded `while` loops of the generators become fuel-indexed
  recursions returning `Option (List ℝ)` (`none` when the fuel runs out
  before the loop's own exit condition fires, so every `some` result is a
  run the Python loop completes);
* Python exceptions (`ZeroDivisionError` from `1 / 0.0`, indexing an empty
  series) become `Except RunErr` results;
* IEEE floats become exact reals.  The single place where the IEEE
  semantics and `ℝ` disagree on reachable inputs is `np.log 0 = -inf`
  (Mathlib's `Real.log 0 = 0`): a zero draw makes the homogeneous
  candidate `+inf` when the rate is positive, so the loop breaks; the
  generator loops model this with an explicit zero-draw branch.  (With a
  negative rate a zero draw would append `-inf`; no claim reaches that
  regime and it is not modelled.)
-/

noncomputable section

/-- Runtime failures of the embedded Python code: `zeroDiv` is Python's
`ZeroDivisionError`, `indexError` is an out-of-bounds series lookup, and
`outOfFuel` is the model's marker for a loop that did not reach its exit
condition within the given fuel. -/
inductive RunErr where
  | zeroDiv
  | indexError
  | outOfFuel
deriving DecidableEq

/-- Class `HomogenousPoissonProcess` (source cell 2): stores the constant
rate `lambda_`; the constructor performs no validation. -/
structure HomogenousPoissonProcess where
  lambda_ : ℝ

/-- Loop body of `HomogenousPoissonProcess.generate_series`:
`t_ = t_ - 1 / self.lambda_ * np.log(u); if t_ > t: break; s.append(t_)`.
`idx` is the position in the draw stream, `tcur` the accumulator `t_`.
A zero draw models `np.log 0 = -inf`: with the rates the claims use the
candidate is `+inf`, which exceeds every horizon, so the loop breaks. -/
def homGo (lam t : ℝ) (u : ℕ → ℝ) : ℕ → ℕ → ℝ → Option (List ℝ)
  | 0, _, _ => none
  | fuel + 1, idx, tcur =>
    if u idx = 0 then some []
    else
      let cand := tcur - 1 / lam * Real.log (u idx)
      if cand > t then some []
      else (homGo lam t u fuel (idx + 1) cand).map (fun s => cand :: s)

/-- `HomogenousPoissonProcess.generate_series(t)` (source cell 2): the
inversion loop starting from `t_ = 0`, `s = []`.  `1 / self.lambda_`
raises `ZeroDivisionError` when the stored rate is zero. -/
def HomogenousPoissonProcess.generate_series (p : HomogenousPoissonProcess)
    (t : ℝ) (u : ℕ → ℝ) (fuel : ℕ) : Except RunErr (List ℝ) :=
  if p.lambda_ = 0 then .error .zeroDiv
  else
    match homGo p.lambda_ t u fuel 0 0 with
    | none => .error .outOfFuel
    | some s => .ok s

/-- Class `InhomogeneousPoissonProcess` (source cell 3): dominating rate
`lambda_` and caller-supplied rate function `lambda_t`. -/
structure InhomogeneousPoissonProcess where
  lambda_ : ℝ
  lambda_t : ℝ → ℝ

/-- Loop body of `InhomogeneousPoissonProcess.generate_series` (thinning):
each iteration draws `u1 = u idx`, computes the candidate by the inversion
step at the dominating rate, breaks if it exceeds the horizon, then draws
`u2 = u (idx + 1)` and appends the candidate iff
`u2 <= lambda_t(candidate) / lambda_`.  Accepted or not, the recursion
continues from the candidate time. -/
def inhGo (lam t : ℝ) (lamT : ℝ → ℝ) (u : ℕ → ℝ) :
    ℕ → ℕ → ℝ → Option (List ℝ)
  | 0, _, _ => none
  | fuel + 1, idx, tcur =>
    if u idx = 0 then some []
    else
      let cand := tcur - 1 / lam * Real.log (u idx)
      if cand > t then some []
      else
        if u (idx + 1) ≤ lamT cand / lam then
          (inhGo lam t lamT u fuel (idx + 2) cand).map (fun s => cand :: s)
        else
          inhGo lam t lamT u fuel (idx + 2) cand

/-- `InhomogeneousPoissonProcess.generate_series(t)` (source cell 3). -/
def InhomogeneousPoissonProcess.generate_series
    (p : InhomogeneousPoissonProcess) (t : ℝ) (u : ℕ → ℝ) (fuel : ℕ) :
    Except RunErr (List ℝ) :=
  if p.lambda_ = 0 then .error .zeroDiv
  else
    match inhGo p.lambda_ t p.lambda_t u fuel 0 0 with
    | none => .error .outOfFuel
    | some s => .ok s

/-- Class `ExponentialRandomVariable` (source cell 5): stores `lambda_`,
no validation in the constructor. -/
structure ExponentialRandomVariable where
  lambda_ : ℝ

/-- `ExponentialRandomVariable.generate()` (source cell 5):
`-1 / self.lambda_ * np.log(1 - u)` with `u` the uniform draw. -/
def ExponentialRandomVariable.generate (v : ExponentialRandomVariable)
    (u : ℝ) : ℝ :=
  -1 / v.lambda_ * Real.log (1 - u)

/-- `RandomVariable.generate_series(n)` (source cell 4) specialised to the
exponential variable: `pd.Series([self.generate() for _ in range(n)])`.
`range(n)` is empty for `n ≤ 0`, so no draw is made and no division
happens; otherwise the first `generate` call divides by `lambda_`, which
raises `ZeroDivisionError` when the rate is zero.  Sample `i` consumes
draw `u i`. -/
def ExponentialRandomVariable.generate_series (v : ExponentialRandomVariable)
    (n : ℤ) (u : ℕ → ℝ) : Except RunErr (List ℝ) :=
  if n ≤ 0 then .ok []
  else if v.lambda_ = 0 then .error .zeroDiv
  else .ok ((List.range n.toNat).map fun i => v.generate (u i))

/-- Ordering invariant of an arrival series result (spec §8 "Ordering"):
when generation succeeds, adjacent arrivals strictly increase and every
arrival is at most the horizon `t` (so a candidate exceeding `t` was never
appended). -/
def orderedSeries (t : ℝ) : Except RunErr (List ℝ) → Prop
  | .ok s => s.Chain' (· < ·) ∧ ∀ x ∈ s, x ≤ t
  | .error _ => True

lemma homGo_inv (lam t : ℝ) (u : ℕ → ℝ) (hl : 0 < lam)
    (hu : ∀ i, 0 ≤ u i ∧ u i < 1) :
    ∀ fuel idx tcur s, homGo lam t u fuel idx tcur = some s →
      s.Chain' (· < ·) ∧ ∀ x ∈ s, tcur < x ∧ x ≤ t := by
  intro fuel
  induction fuel with
  | zero => intro idx tcur s h; simp [homGo] at h
  | succ fuel ih =>
    intro idx tcur s h
    rw [homGo] at h
    by_cases h0 : u idx = 0
    · rw [if_pos h0] at h
      obtain rfl : ([] : List ℝ) = s := Option.some.inj h
      simp
    · rw [if_neg h0] at h
      set cand := tcur - 1 / lam * Real.log (u idx) with hcand
      by_cases hgt : cand > t
      · rw [if_pos hgt] at h
        obtain rfl : ([] : List ℝ) = s := Option.some.inj h
        simp
      · rw [if_neg hgt] at h
        rcases hrec : homGo lam t u fuel (idx + 1) cand with _ | s'
        · rw [hrec] at h; simp at h
        · rw [hrec] at h
          simp only [Option.map_some'] at h
          obtain rfl : cand :: s' = s := Option.some.inj h
          obtain ⟨hch, hall⟩ := ih (idx + 1) cand s' hrec
          have hu0 : 0 < u idx := lt_of_le_of_ne (hu idx).1 (Ne.symm h0)
          have hlog : Real.log (u idx) < 0 := Real.log_neg hu0 (hu idx).2
          have hstep : tcur < cand := by
            have : 1 / lam * Real.log (u idx) < 0 :=
              mul_neg_of_pos_of_neg (by positivity) hlog
            rw [hcand]; linarith
          refine ⟨?_, ?_⟩
          · rw [List.chain'_cons']
            exact ⟨fun y hy => ((hall y (List.mem_of_mem_head? hy)).1), hch⟩
          · intro x hx
            rcases List.mem_cons.1 hx with rfl | hx'
            · exact ⟨hstep, not_lt.1 hgt⟩
            · exact ⟨lt_trans hstep (hall x hx').1, (hall x hx').2⟩

lemma inhGo_inv (lam t : ℝ) (lamT : ℝ → ℝ) (u : ℕ → ℝ) (hl : 0 < lam)
    (hu : ∀ i, 0 ≤ u i ∧ u i < 1) :
    ∀ fuel idx tcur s, inhGo lam t lamT u fuel idx tcur = some s →
      s.Chain' (· < ·) ∧ ∀ x ∈ s, tcur < x ∧ x ≤ t := by
  intro fuel
  induction fuel with
  | zero => intro idx tcur s h; simp [inhGo] at h
  | succ fuel ih =>
    intro idx tcur s h
    rw [inhGo] at h
    by_cases h0 : u idx = 0
    · rw [if_pos h0] at h
      obtain rfl : ([] : List ℝ) = s := Option.some.inj h
      simp
    · rw [if_neg h0] at h
      set cand := tcur - 1 / lam * Real.log (u idx) with hcand
      by_cases hgt : cand > t
      · rw [if_pos hgt] at h
        obtain rfl : ([] : List ℝ) = s := Option.some.inj h
        simp
      · rw [if_neg hgt] at h
        have hu0 : 0 < u idx := lt_of_le_of_ne (hu idx).1 (Ne.symm h0)
        have hlog : Real.log (u idx) < 0 := Real.log_neg hu0 (hu idx).2
        have hstep : tcur < cand := by
          have : 1 / lam * Real.log (u idx) < 0 :=
            mul_neg_of_pos_of_neg (by positivity) hlog
          rw [hcand]; linarith
        by_cases hacc : u (idx + 1) ≤ lamT cand / lam
        · rw [if_pos hacc] at h
          rcases hrec : inhGo lam t lamT u fuel (idx + 2) cand with _ | s'
          · rw [hrec] at h; simp at h
          · rw [hrec] at h
            simp only [Option.map_some'] at h
            obtain rfl : cand :: s' = s := Option.some.inj h
            obtain ⟨hch, hall⟩ := ih (idx + 2) cand s' hrec
            refine ⟨?_, ?_⟩
            · rw [List.chain'_cons']
              exact ⟨fun y hy => ((hall y (List.mem_of_mem_head? hy)).1), hch⟩
            · intro x hx
              rcases List.mem_cons.1 hx with rfl | hx'
              · exact ⟨hstep, not_lt.1 hgt⟩
              · exact ⟨lt_trans hstep (hall x hx').1, (hall x hx').2⟩
        · rw [if_neg hacc] at h
          obtain ⟨hch, hall⟩ := ih (idx + 2) cand s h
          exact ⟨hch, fun x hx =>
            ⟨lt_trans hstep (hall x hx).1, (hall x hx).2⟩⟩

/-- C2: for every horizon, every positive rate and every stream of
uniform draws in `[0, 1)`, the series returned by `generate_series` of
both the homogeneous and the inhomogeneous generator is strictly
increasing, every element is at most the horizon, and a candidate
exceeding the horizon is never appended. -/
theorem generate_series_ordered (lam t : ℝ) (lamT : ℝ → ℝ) (u : ℕ → ℝ)
    (fuel : ℕ) (hl : 0 < lam) (hu : ∀ i, 0 ≤ u i ∧ u i < 1) :
    orderedSeries t
        ((HomogenousPoissonProcess.mk lam).generate_series t u fuel) ∧
      orderedSeries t
        ((InhomogeneousPoissonProcess.mk lam lamT).generate_series t u fuel) := by
  have hne : lam ≠ 0 := ne_of_gt hl
  constructor
  · rw [HomogenousPoissonProcess.generate_series]
    simp only [hne, if_false]
    rcases hrec : homGo lam t u fuel 0 0 with _ | s
    · simp [orderedSeries]
    · obtain ⟨hch, hall⟩ := homGo_inv lam t u hl hu fuel 0 0 s hrec
      exact ⟨hch, fun x hx => (hall x hx).2⟩
  · rw [InhomogeneousPoissonProcess.generate_series]
    simp only [hne, if_false]
    rcases hrec : inhGo lam t lamT u fuel 0 0 with _ | s
    · simp [orderedSeries]
    · obtain ⟨hch, hall⟩ := inhGo_inv lam t lamT u hl hu fuel 0 0 s hrec
      exact ⟨hch, fun x hx => (hall x hx).2⟩

/-- Witness for `generate_series_ordered` at `lam = 1`, `t = 0`,
constant draw `1/2`, fuel `1`. -/
theorem generate_series_ordered_witness :
    orderedSeries 0
        ((HomogenousPoissonProcess.mk 1).generate_series 0 (fun _ => 1/2) 1) ∧
      orderedSeries 0
        ((InhomogeneousPoissonProcess.mk 1 (fun x => x)).generate_series 0
          (fun _ => 1/2) 1) :=
  generate_series_ordered 1 0 (fun x => x) (fun _ => 1/2) 1 (by norm_num)
    (fun _ => by norm_num)

/-- One iteration of the thinning loop, described from the code: with the
candidate `cand = tcur - 1 / lambda_ * log u1` not exceeding the horizon,
the acceptance test compares `u2` against `lambda_t cand / lambda_` (the
rate function applied to the candidate time), and whether the candidate
is accepted or rejected, the loop continues with `cand` as the new
current time. -/
def thinningStepOK (p : InhomogeneousPoissonProcess) (t : ℝ) (u : ℕ → ℝ)
    (fuel idx : ℕ) (tcur : ℝ) : Prop :=
  (u (idx + 1) ≤ p.lambda_t (tcur - 1 / p.lambda_ * Real.log (u idx)) / p.lambda_ →
      inhGo p.lambda_ t p.lambda_t u (fuel + 1) idx tcur =
        (inhGo p.lambda_ t p.lambda_t u fuel (idx + 2)
            (tcur - 1 / p.lambda_ * Real.log (u idx))).map
          (fun s => (tcur - 1 / p.lambda_ * Real.log (u idx)) :: s)) ∧
    (¬ u (idx + 1) ≤ p.lambda_t (tcur - 1 / p.lambda_ * Real.log (u idx)) / p.lambda_ →
      inhGo p.lambda_ t p.lambda_t u (fuel + 1) idx tcur =
        inhGo p.lambda_ t p.lambda_t u fuel (idx + 2)
          (tcur - 1 / p.lambda_ * Real.log (u idx)))

/-- C3: in the thinning generator every rejected candidate's time becomes
the current time for the next inversion step (the clock advances on
rejection instead of resetting to the last accepted arrival), and the
acceptance test evaluates the caller-supplied rate function at the
candidate time, not at the previous accepted time. -/
theorem thinning_step (p : InhomogeneousPoissonProcess) (t : ℝ) (u : ℕ → ℝ)
    (fuel idx : ℕ) (tcur : ℝ) (h0 : u idx ≠ 0)
    (hc : tcur - 1 / p.lambda_ * Real.log (u idx) ≤ t) :
    thinningStepOK p t u fuel idx tcur := by
  constructor
  · intro hacc
    rw [inhGo, if_neg h0, if_neg (not_lt.2 hc), if_pos hacc]
  · intro hrej
    rw [inhGo, if_neg h0, if_neg (not_lt.2 hc), if_neg hrej]

/-- Witness for `thinning_step` at `lambda_ = 1`, `lambda_t = const 1/2`,
horizon `10`, constant draw `1/2`, fuel `0`, first iteration. -/
theorem thinning_step_witness :
    thinningStepOK (InhomogeneousPoissonProcess.mk 1 (fun _ => 1/2)) 10
      (fun _ => 1/2) 0 0 0 :=
  thinning_step (InhomogeneousPoissonProcess.mk 1 (fun _ => 1/2)) 10
    (fun _ => 1/2) 0 0 0 (by norm_num)
    (by
      have hlog : Real.log ((1:ℝ)/2) = -Real.log 2 := by
        rw [one_div, Real.log_inv]
      have h2 : Real.log 2 < 1 := lt_trans Real.log_two_lt_d9 (by norm_num)
      simp only [InhomogeneousPoissonProcess.mk, hlog]
      linarith)

/-- C5 counterexample: the homogeneous generator with the non-positive
rate `-1` does not fail; with horizon `-1` and constant draw `1/2` the
first candidate `log (1/2)` already exceeds the horizon and
`generate_series` successfully returns the empty series. -/
theorem homogeneous_negative_rate_no_error :
    (HomogenousPoissonProcess.mk (-1)).generate_series (-1) (fun _ => 1/2) 1 =
        Except.ok [] ∧ (-1 : ℝ) ≤ 0 := by
  refine ⟨?_, by norm_num⟩
  rw [HomogenousPoissonProcess.generate_series]
  have hne : (HomogenousPoissonProcess.mk (-1)).lambda_ ≠ 0 := by norm_num
  rw [if_neg hne]
  have hgo : homGo (HomogenousPoissonProcess.mk (-1)).lambda_ (-1)
      (fun _ => 1/2) 1 0 0 = some [] := by
    rw [homGo]
    have h0 : ((fun (_ : ℕ) => (1:ℝ)/2) 0) ≠ 0 := by norm_num
    rw [if_neg h0]
    have hcand : (0:ℝ) - 1 / (HomogenousPoissonProcess.mk (-1)).lambda_ *
        Real.log ((fun (_ : ℕ) => (1:ℝ)/2) 0) > -1 := by
      have hlog : Real.log ((1:ℝ)/2) = -Real.log 2 := by
        rw [one_div, Real.log_inv]
      have h2 : Real.log 2 < 1 :=
        lt_trans Real.log_two_lt_d9 (by norm_num)
      simp only [HomogenousPoissonProcess.mk, hlog]
      norm_num
      linarith
    rw [if_pos hcand]
  rw [hgo]

/-- C5 amended: running the homogeneous generator with rate `0` fails
with a division-by-zero error (`1 / self.lambda_`), for every horizon,
draw stream and fuel; no `InvalidParameter` check exists. -/
theorem homogeneous_zero_rate_zero_division :
    ∀ (t : ℝ) (u : ℕ → ℝ) (fuel : ℕ),
      (HomogenousPoissonProcess.mk 0).generate_series t u fuel =
        Except.error RunErr.zeroDiv := by
  intro t u fuel
  rw [HomogenousPoissonProcess.generate_series]
  rw [if_pos rfl]

/-- C6 counterexample: `generate_series` with a negative sample count does
not fail with `InvalidParameter`; `range(n)` is simply empty and an empty
series is returned successfully (here with the valid rate `1`). -/
theorem exponential_negative_count_no_error :
    (ExponentialRandomVariable.mk 1).generate_series (-1) (fun _ => 1/2) =
        Except.ok [] ∧ (-1 : ℤ) < 0 := by
  constructor
  · rw [ExponentialRandomVariable.generate_series]
    rw [if_pos (by norm_num : (-1 : ℤ) ≤ 0)]
  · norm_num

/-- C6 amended: `generate_series(n)` performs no validation.  For every
nonzero rate and every `n ≥ 0` it succeeds with exactly `n` samples (for
`n < 0` it also succeeds, with the empty series); only a zero rate with
`n ≥ 1` fails, and with a division-by-zero error. -/
theorem exponential_generate_series_length (v : ExponentialRandomVariable)
    (n : ℤ) (u : ℕ → ℝ) (hl : v.lambda_ ≠ 0) (hn : 0 ≤ n) :
    ∃ l, v.generate_series n u = Except.ok l ∧ (l.length : ℤ) = n := by
  rw [ExponentialRandomVariable.generate_series]
  by_cases h0 : n ≤ 0
  · refine ⟨[], ?_, ?_⟩
    · rw [if_pos h0]
    · simp [le_antisymm h0 hn]
  · rw [if_neg h0, if_neg hl]
    refine ⟨(List.range n.toNat).map fun i => v.generate (u i), rfl, ?_⟩
    rw [List.length_map, List.length_range, Int.toNat_of_nonneg hn]

/-- Witness for `exponential_generate_series_length` at rate `1`,
`n = 2`. -/
theorem exponential_generate_series_length_witness :
    ∃ l, (ExponentialRandomVariable.mk 1).generate_series 2 (fun _ => 1/2) =
        Except.ok l ∧ (l.length : ℤ) = 2 :=
  exponential_generate_series_length (ExponentialRandomVariable.mk 1) 2
    (fun _ => 1/2) (by norm_num) (by norm_num)

/-- C8 counterexample: at rate `1` and draw `u = 0` (a value the uniform
source can produce, since draws live in `[0, 1)`), the generated sample is
`-1/1 * log (1 - 0) = 0`, which is not strictly greater than `0`. -/
theorem exponential_generate_zero_at_zero_draw :
    (ExponentialRandomVariable.mk 1).generate 0 = 0 := by
  rw [ExponentialRandomVariable.generate]
  norm_num

/-- C8 amended: for every rate `lam > 0` and draw `u ∈ [0, 1)`,
`generate` returns exactly `-(1/lam) * log (1 - u)` (the `1 - u` form);
the sample is always nonnegative, and strictly positive exactly when the
draw is nonzero (`u = 0` yields the sample `0`). -/
theorem exponential_generate_formula (lam u : ℝ) (hl : 0 < lam)
    (h0 : 0 ≤ u) (h1 : u < 1) :
    (ExponentialRandomVariable.mk lam).generate u =
        -(1 / lam) * Real.log (1 - u) ∧
      0 ≤ (ExponentialRandomVariable.mk lam).generate u ∧
      (0 < u → 0 < (ExponentialRandomVariable.mk lam).generate u) := by
  have hform : (ExponentialRandomVariable.mk lam).generate u =
      -(1 / lam) * Real.log (1 - u) := by
    rw [ExponentialRandomVariable.generate]
    ring_nf
  refine ⟨hform, ?_, ?_⟩
  · rw [hform]
    have hlog : Real.log (1 - u) ≤ 0 :=
      Real.log_nonpos (by linarith) (by linarith)
    have hpos : 0 < 1 / lam := by positivity
    nlinarith
  · intro hu
    rw [hform]
    have hlog : Real.log (1 - u) < 0 :=
      Real.log_neg (by linarith) (by linarith)
    have hneg : -(1 / lam) < 0 := by
      have : 0 < 1 / lam := by positivity
      linarith
    exact mul_pos_of_neg_of_neg hneg hlog

/-- Witness for `exponential_generate_formula` at rate `1`, draw `1/2`. -/
theorem exponential_generate_formula_witness :
    (ExponentialRandomVariable.mk 1).generate (1/2) =
        -(1 / 1) * Real.log (1 - 1/2) ∧
      0 ≤ (ExponentialRandomVariable.mk 1).generate (1/2) ∧
      (0 < (1:ℝ)/2 → 0 < (ExponentialRandomVariable.mk 1).generate (1/2)) :=
  exponential_generate_formula 1 (1/2) (by norm_num) (by norm_num)
    (by norm_num)

/-- Loop of `simulate_mss` (source cell 14), from index `i` with the
previous completion time `prevEnd = raw_ending[i-1]` and `rem` iterations
left: each step appends to `raw_starting`/`raw_ending` by the two-branch
comparison `incoming[i] >= raw_ending[i-1]`.  Returns the two appended
lists `(raw_starting tail, raw_ending tail)`. -/
def mssLoop (incoming processing : ℕ → ℝ) :
    ℕ → ℕ → ℝ → List ℝ × List ℝ
  | 0, _, _ => ([], [])
  | rem + 1, i, prevEnd =>
    if incoming i ≥ prevEnd then
      let rest := mssLoop incoming processing rem (i + 1)
        (incoming i + processing i)
      (incoming i :: rest.1, (incoming i + processing i) :: rest.2)
    else
      let rest := mssLoop incoming processing rem (i + 1)
        (prevEnd + processing i)
      (prevEnd :: rest.1, (prevEnd + processing i) :: rest.2)

/-- `simulate_mss` (source cell 14), with the arrival series and the
service-time series already generated: it reads `incoming[0]` and
`processing[0]` unconditionally (raising an indexing error when the
arrival series is empty), seeds `raw_starting = [incoming[0]]`,
`raw_ending = [incoming[0] + processing[0]]`, and runs the loop over
`range(1, len(incoming))`.  Returns the `(starting, ending)` columns. -/
def simulate_mss (incoming processing : List ℝ) :
    Except RunErr (List ℝ × List ℝ) :=
  match incoming, processing with
  | [], _ => .error .indexError
  | _, [] => .error .indexError
  | i0 :: _, p0 :: _ =>
    let rest := mssLoop (fun j => incoming.getD j 0)
      (fun j => processing.getD j 0) (incoming.length - 1) 1 (i0 + p0)
    .ok (i0 :: rest.1, (i0 + p0) :: rest.2)

/-- The max-formulation of the queue recurrence (spec §1): the first job
starts at its arrival; every later job starts at the later of its arrival
and the previous completion; every job ends at its start plus its service
duration. -/
def mssTableOK (incoming processing sts ens : List ℝ) : Prop :=
  sts.length = incoming.length ∧ ens.length = incoming.length ∧
    sts.getD 0 0 = incoming.getD 0 0 ∧
    (∀ i, 0 < i → i < incoming.length →
      sts.getD i 0 = max (incoming.getD i 0) (ens.getD (i - 1) 0)) ∧
    (∀ i, i < incoming.length →
      ens.getD i 0 = sts.getD i 0 + processing.getD i 0)

lemma mssLoop_spec (incoming processing : ℕ → ℝ) :
    ∀ rem i prevEnd,
      (mssLoop incoming processing rem i prevEnd).1.length = rem ∧
      (mssLoop incoming processing rem i prevEnd).2.length = rem ∧
      ∀ j, j < rem →
        (mssLoop incoming processing rem i prevEnd).1.getD j 0 =
            max (incoming (i + j))
              (if j = 0 then prevEnd
               else (mssLoop incoming processing rem i prevEnd).2.getD (j - 1) 0) ∧
          (mssLoop incoming processing rem i prevEnd).2.getD j 0 =
            (mssLoop incoming processing rem i prevEnd).1.getD j 0 +
              processing (i + j) := by
  intro rem
  induction rem with
  | zero => intro i prevEnd; refine ⟨rfl, rfl, ?_⟩; intro j hj; omega
  | succ rem ih =>
    intro i prevEnd
    have hbranch : ∀ st en : ℝ, st = max (incoming i) prevEnd →
        en = st + processing i →
        mssLoop incoming processing (rem + 1) i prevEnd =
          (st :: (mssLoop incoming processing rem (i + 1) en).1,
            en :: (mssLoop incoming processing rem (i + 1) en).2) →
        (mssLoop incoming processing (rem + 1) i prevEnd).1.length = rem + 1 ∧
        (mssLoop incoming processing (rem + 1) i prevEnd).2.length = rem + 1 ∧
        ∀ j, j < rem + 1 →
          (mssLoop incoming processing (rem + 1) i prevEnd).1.getD j 0 =
              max (incoming (i + j))
                (if j = 0 then prevEnd
                 else (mssLoop incoming processing (rem + 1) i prevEnd).2.getD
                   (j - 1) 0) ∧
            (mssLoop incoming processing (rem + 1) i prevEnd).2.getD j 0 =
              (mssLoop incoming processing (rem + 1) i prevEnd).1.getD j 0 +
                processing (i + j) := by
      intro st en hst hen heq
      obtain ⟨hl1, hl2, hj⟩ := ih (i + 1) en
      rw [heq]
      refine ⟨by simp [hl1], by simp [hl2], ?_⟩
      intro j hjlt
      cases j with
      | zero =>
        simp only [List.getD_cons_zero, if_pos rfl, Nat.add_zero]
        exact ⟨hst, by rw [hen]⟩
      | succ j' =>
        have hj' : j' < rem := by omega
        obtain ⟨hs, he⟩ := hj j' hj'
        simp only [List.getD_cons_succ]
        constructor
        · rw [hs]
          have hidx : i + 1 + j' = i + (j' + 1) := by omega
          rw [hidx]
          have : j' + 1 ≠ 0 := by omega
          rw [if_neg this]
          cases j'' : j' with
          | zero =>
            subst j''
            simp only [if_pos rfl]
            simp [List.getD_cons_zero]
          | succ j3 =>
            subst j''
            have : (j3 + 1 : ℕ) ≠ 0 := by omega
            rw [if_neg this]
            have hidx2 : (j3 + 1 + 1 - 1 : ℕ) = j3 + 1 := by omega
            rw [hidx2]
            simp [List.getD_cons_succ]
        · rw [he]
          have hidx : i + 1 + j' = i + (j' + 1) := by omega
          rw [hidx]
    by_cases hc : incoming i ≥ prevEnd
    · have hst : incoming i = max (incoming i) prevEnd :=
        (max_eq_left hc).symm
      refine hbranch (incoming i) (incoming i + processing i) hst rfl ?_
      rw [mssLoop, if_pos hc]
    · have hlt : incoming i < prevEnd := not_le.1 hc
      have hst : prevEnd = max (incoming i) prevEnd :=
        (max_eq_right (le_of_lt hlt)).symm
      refine hbranch prevEnd (prevEnd + processing i) hst rfl ?_
      rw [mssLoop, if_neg hc]

/-- C9: for every run of `simulate_mss` with at least one arrival (and the
service series of matching length the code always generates), the output
satisfies `starting[0] = incoming[0]`, and for `i ≥ 1`
`starting[i] = max(incoming[i], ending[i-1])` and
`ending[i] = starting[i] + processing[i]`: the two-branch accumulation is
the max-formulation. -/
theorem simulate_mss_max_recurrence (incoming processing : List ℝ)
    (hne : incoming ≠ []) (hlen : processing.length = incoming.length) :
    ∃ sts ens, simulate_mss incoming processing = Except.ok (sts, ens) ∧
      mssTableOK incoming processing sts ens := by
  rcases incoming with _ | ⟨i0, itl⟩
  · exact absurd rfl hne
  rcases processing with _ | ⟨p0, ptl⟩
  · simp at hlen
  set f : ℕ → ℝ := fun j => (i0 :: itl).getD j 0 with hf
  set g : ℕ → ℝ := fun j => (p0 :: ptl).getD j 0 with hg
  have hlen' : (i0 :: itl).length - 1 = itl.length := by simp
  refine ⟨i0 :: (mssLoop f g itl.length 1 (i0 + p0)).1,
    (i0 + p0) :: (mssLoop f g itl.length 1 (i0 + p0)).2, ?_, ?_⟩
  · rw [simulate_mss]
    simp only [hlen']
  · obtain ⟨hl1, hl2, hj⟩ := mssLoop_spec f g itl.length 1 (i0 + p0)
    refine ⟨by simp [hl1], by simp [hl2], by simp, ?_, ?_⟩
    · intro i hipos hilt
      cases i with
      | zero => omega
      | succ j =>
        have hjlt : j < itl.length := by
          simp at hilt; omega
        obtain ⟨hs, _⟩ := hj j hjlt
        simp only [List.getD_cons_succ]
        rw [hs]
        have hidx : (1 + j : ℕ) = j + 1 := by omega
        rw [hidx]
        cases j with
        | zero =>
          simp [hf, List.getD_cons_zero]
        | succ j' =>
          have : (j' + 1 : ℕ) ≠ 0 := by omega
          rw [if_neg this]
          have hidx2 : (j' + 1 + 1 - 1 : ℕ) = j' + 1 := by omega
          rw [hidx2]
          simp [hf, List.getD_cons_succ]
    · intro i hilt
      cases i with
      | zero => simp
      | succ j =>
        have hjlt : j < itl.length := by
          simp at hilt; omega
        obtain ⟨_, he⟩ := hj j hjlt
        simp only [List.getD_cons_succ]
        rw [he]
        have hidx : (1 + j : ℕ) = j + 1 := by omega
        rw [hidx]
        simp [hg]

/-- Witness for `simulate_mss_max_recurrence` on the two-job run with
arrivals `[0, 1]` and service times `[2, 1]`. -/
theorem simulate_mss_max_recurrence_witness :
    ∃ sts ens, simulate_mss [(0:ℝ), 1] [2, 1] = Except.ok (sts, ens) ∧
      mssTableOK [(0:ℝ), 1] [2, 1] sts ens :=
  simulate_mss_max_recurrence [(0:ℝ), 1] [2, 1] (by simp) (by simp)

/-- C10: a non-positive horizon always makes the homogeneous generator
return an empty series (the first candidate is strictly positive, or
infinite on a zero draw, so it exceeds the horizon at once), and
`simulate_mss` on an empty arrival series fails with an indexing error
(it reads `incoming[0]` unconditionally) for every service series,
instead of returning an empty table. -/
theorem simulate_mss_empty_series_index_error (lam t : ℝ) (u : ℕ → ℝ)
    (fuel : ℕ) (ps : List ℝ) (hl : 0 < lam) (ht : t ≤ 0)
    (hu : ∀ i, 0 ≤ u i ∧ u i < 1) (hf : 1 ≤ fuel) :
    (HomogenousPoissonProcess.mk lam).generate_series t u fuel =
        Except.ok [] ∧
      simulate_mss [] ps = Except.error RunErr.indexError := by
  constructor
  · have hne : (HomogenousPoissonProcess.mk lam).lambda_ ≠ 0 := ne_of_gt hl
    rw [HomogenousPoissonProcess.generate_series, if_neg hne]
    obtain ⟨fuel', rfl⟩ : ∃ k, fuel = k + 1 :=
      ⟨fuel - 1, by omega⟩
    have hgo : homGo (HomogenousPoissonProcess.mk lam).lambda_ t u
        (fuel' + 1) 0 0 = some [] := by
      rw [homGo]
      by_cases h0 : u 0 = 0
      · rw [if_pos h0]
      · rw [if_neg h0]
        have hu0 : 0 < u 0 := lt_of_le_of_ne (hu 0).1 (Ne.symm h0)
        have hlog : Real.log (u 0) < 0 := Real.log_neg hu0 (hu 0).2
        have hcand : (0:ℝ) - 1 / (HomogenousPoissonProcess.mk lam).lambda_ *
            Real.log (u 0) > t := by
          have : 1 / lam * Real.log (u 0) < 0 :=
            mul_neg_of_pos_of_neg (by positivity) hlog
          simp only [HomogenousPoissonProcess.mk]
          linarith
        rw [if_pos hcand]
    rw [hgo]
  · rw [simulate_mss]

/-- Witness for `simulate_mss_empty_series_index_error` at rate `1`,
horizon `0`, constant draw `1/2`, fuel `1`, empty service list. -/
theorem simulate_mss_empty_series_index_error_witness :
    (HomogenousPoissonProcess.mk 1).generate_series 0 (fun _ => 1/2) 1 =
        Except.ok [] ∧
      simulate_mss [] [] = Except.error RunErr.indexError :=
  simulate_mss_empty_series_index_error 1 0 (fun _ => 1/2) 1 []
    (by norm_num) (by norm_num) (fun _ => by norm_num) (by norm_num)

lemma list_getD_map {α β : Type} (f : α → β) :
    ∀ (l : List α) (i : ℕ), i < l.length → ∀ (d : β) (d' : α),
      (l.map f).getD i d = f (l.getD i d') := by
  intro l
  induction l with
  | nil => intro i hi; simp at hi
  | cons a l ih =>
    intro i hi d d'
    cases i with
    | zero => simp
    | succ i' =>
      simp only [List.map_cons, List.getD_cons_succ]
      exact ih i' (by simpa using hi) d d'

lemma list_getD_zipWith {α β γ : Type} (f : α → β → γ) :
    ∀ (l₁ : List α) (l₂ : List β) (i : ℕ), i < l₁.length → i < l₂.length →
      ∀ (d : γ) (d₁ : α) (d₂ : β),
        (List.zipWith f l₁ l₂).getD i d = f (l₁.getD i d₁) (l₂.getD i d₂) := by
  intro l₁
  induction l₁ with
  | nil => intro l₂ i hi; simp at hi
  | cons a l₁ ih =>
    intro l₂ i h₁ h₂ d d₁ d₂
    cases l₂ with
    | nil => simp at h₂
    | cons b l₂ =>
      cases i with
      | zero => simp
      | succ i' =>
        simp only [List.zipWith_cons_cons, List.getD_cons_succ]
        exact ih l₂ i' (by simpa using h₁) (by simpa using h₂) d d₁ d₂

lemma list_getD_tail {α : Type} (l : List α) (i : ℕ) (d : α) :
    l.tail.getD i d = l.getD (i + 1) d := by
  cases l with
  | nil => simp [List.getD]
  | cons a l => simp

lemma list_sum_getD {M : Type} [AddCommMonoid M] :
    ∀ l : List M, l.sum = ∑ i ∈ Finset.range l.length, l.getD i 0 := by
  intro l
  induction l with
  | nil => simp
  | cons a l ih =>
    rw [List.sum_cons, List.length_cons, Finset.sum_range_succ']
    simp only [List.getD_cons_succ, List.getD_cons_zero]
    rw [← ih, add_comm]

/-- `exp_prob` (source cell 6): the probability an exponential variable
with rate `lambda_` falls in `[start, stop)`:
`np.exp(-lambda_ * start) - np.exp(-lambda_ * end)`. -/
def exp_prob (lambda_ start stop : ℝ) : ℝ :=
  Real.exp (-lambda_ * start) - Real.exp (-lambda_ * stop)

/-- `n = int(np.sum(counts))` in `chi2_exp` (source cell 6); the counts
are the integer histogram occupancies. -/
def chi2_n (counts : List ℕ) : ℕ := counts.sum

/-- `values = (bins[1:] + bins[:-1]) / 2` in `chi2_exp`: the bin
midpoints. -/
def chi2_values (bins : List ℝ) : List ℝ :=
  List.zipWith (fun a b => (b + a) / 2) bins bins.tail

/-- `x_b = np.sum(values * counts) / n` in `chi2_exp`: the counts-weighted
mean of the bin midpoints. -/
def chi2_xb (bins : List ℝ) (counts : List ℕ) : ℝ :=
  (List.zipWith (fun v c => v * c) (chi2_values bins)
      (counts.map (Nat.cast : ℕ → ℝ))).sum / (chi2_n counts : ℝ)

/-- `lambda_s = 1 / x_b` in `chi2_exp`: the fitted rate. -/
def chi2_lambda (bins : List ℝ) (counts : List ℕ) : ℝ :=
  1 / chi2_xb bins counts

/-- `p = exp_prob(lambda_s, bins[:-1], bins[1:])` in `chi2_exp`. -/
def chi2_p (bins : List ℝ) (counts : List ℕ) : List ℝ :=
  List.zipWith (fun a b => exp_prob (chi2_lambda bins counts) a b)
    bins bins.tail

/-- `ni = p * n` in `chi2_exp`: the expected counts. -/
def chi2_ni (bins : List ℝ) (counts : List ℕ) : List ℝ :=
  (chi2_p bins counts).map (fun p => p * (chi2_n counts : ℝ))

/-- `delta_n = counts - ni` in `chi2_exp`. -/
def chi2_delta_n (bins : List ℝ) (counts : List ℕ) : List ℝ :=
  List.zipWith (fun c ni => c - ni) (counts.map (Nat.cast : ℕ → ℝ))
    (chi2_ni bins counts)

/-- `delta_n2 = delta_n ** 2` in `chi2_exp`. -/
def chi2_delta_n2 (bins : List ℝ) (counts : List ℕ) : List ℝ :=
  (chi2_delta_n bins counts).map (fun d => d ^ 2)

/-- `k = delta_n2 / ni` in `chi2_exp`: the per-bin chi-square
contributions. -/
def chi2_k (bins : List ℝ) (counts : List ℕ) : List ℝ :=
  List.zipWith (fun d2 ni => d2 / ni) (chi2_delta_n2 bins counts)
    (chi2_ni bins counts)

/-- `chi2_exp(bins, counts)` (source cell 6): returns the statistic
`float(np.sum(k))` and the degrees of freedom `len(values) - 2` (the
per-bin display table is rendering glue and not modelled). -/
def chi2_exp (bins : List ℝ) (counts : List ℕ) : ℝ × ℤ :=
  ((chi2_k bins counts).sum, ((chi2_values bins).length : ℤ) - 2)

/-- Fitted rate as the spec words it (spec §4.3 step 4): the reciprocal of
the counts-weighted mean of bin midpoints, midpoints being
`(left + right) / 2`. -/
def specLambda (e c : ℕ → ℝ) (k : ℕ) : ℝ :=
  1 / ((∑ i ∈ Finset.range k, (e i + e (i + 1)) / 2 * c i) /
    ∑ i ∈ Finset.range k, c i)

/-- Expected count per bin as the spec words it (spec §4.3 step 5):
`n'_i = n * (exp(-lambda * left_i) - exp(-lambda * right_i))` with the
fitted rate. -/
def specNi (e c : ℕ → ℝ) (k i : ℕ) : ℝ :=
  (∑ j ∈ Finset.range k, c j) *
    (Real.exp (-(specLambda e c k) * e i) -
      Real.exp (-(specLambda e c k) * e (i + 1)))

/-- Chi-square statistic as the spec words it (spec §4.3 step 6):
`Σ (n_i - n'_i)^2 / n'_i`. -/
def specChi2 (e c : ℕ → ℝ) (k : ℕ) : ℝ :=
  ∑ i ∈ Finset.range k, (c i - specNi e c k i) ^ 2 / specNi e c k i

/-- C1: on an edge list of `k + 1` increasing edges and a count list
summing to a positive total, the first component returned by `chi2_exp`
is exactly the spec's statistic: fitted rate `1 / x-bar` with `x-bar` the
counts-weighted mean of midpoints `(left + right) / 2`, expected counts
`n * (exp(-rate * left) - exp(-rate * right))`, and statistic
`Σ (observed - expected)^2 / expected`. -/
theorem chi2_exp_matches_spec (bins : List ℝ) (counts : List ℕ) (k : ℕ)
    (hb : bins.length = k + 1) (hc : counts.length = k)
    (hmono : bins.Chain' (· < ·)) (hn : 0 < counts.sum) :
    (chi2_exp bins counts).1 =
      specChi2 (fun i => bins.getD i 0) (fun i => (counts.getD i 0 : ℝ)) k := by
  have hbt : bins.tail.length = k := by rw [List.length_tail, hb]; omega
  have hv : (chi2_values bins).length = k := by
    rw [chi2_values, List.length_zipWith, hb, hbt]
    exact min_eq_right (Nat.le_succ k)
  have hcl : (counts.map (Nat.cast : ℕ → ℝ)).length = k := by
    rw [List.length_map, hc]
  have hp : (chi2_p bins counts).length = k := by
    rw [chi2_p, List.length_zipWith, hb, hbt]
    exact min_eq_right (Nat.le_succ k)
  have hni : (chi2_ni bins counts).length = k := by
    rw [chi2_ni, List.length_map, hp]
  have hd : (chi2_delta_n bins counts).length = k := by
    rw [chi2_delta_n, List.length_zipWith, hcl, hni, min_self]
  have hd2 : (chi2_delta_n2 bins counts).length = k := by
    rw [chi2_delta_n2, List.length_map, hd]
  have hk : (chi2_k bins counts).length = k := by
    rw [chi2_k, List.length_zipWith, hd2, hni, min_self]
  have hnum : ((chi2_n counts : ℕ) : ℝ) =
      ∑ j ∈ Finset.range k, ((counts.getD j 0 : ℕ) : ℝ) := by
    rw [chi2_n, list_sum_getD counts, hc, Nat.cast_sum]
  have hclg : ∀ i, i < k →
      (counts.map (Nat.cast : ℕ → ℝ)).getD i 0 = ((counts.getD i 0 : ℕ) : ℝ) := by
    intro i hi
    exact list_getD_map (Nat.cast : ℕ → ℝ) counts i (hc ▸ hi) 0 0
  have hvg : ∀ i, i < k →
      (chi2_values bins).getD i 0 =
        (bins.getD (i + 1) 0 + bins.getD i 0) / 2 := by
    intro i hi
    rw [chi2_values,
      list_getD_zipWith (fun a b => (b + a) / 2) bins bins.tail i
        (by omega) (hbt ▸ hi) 0 0 0,
      list_getD_tail]
  have hxb : chi2_xb bins counts =
      (∑ i ∈ Finset.range k,
          (bins.getD i 0 + bins.getD (i + 1) 0) / 2 *
            ((counts.getD i 0 : ℕ) : ℝ)) /
        ∑ i ∈ Finset.range k, ((counts.getD i 0 : ℕ) : ℝ) := by
    rw [chi2_xb, hnum, list_sum_getD, List.length_zipWith, hv, hcl, min_self]
    congr 1
    refine Finset.sum_congr rfl ?_
    intro i hi
    have hik : i < k := Finset.mem_range.1 hi
    rw [list_getD_zipWith (fun v c => v * c) (chi2_values bins)
        (counts.map (Nat.cast : ℕ → ℝ)) i (hv ▸ hik) (hcl ▸ hik) 0 0 0,
      hvg i hik, hclg i hik]
    ring
  have hlam : chi2_lambda bins counts =
      specLambda (fun j => bins.getD j 0) (fun j => ((counts.getD j 0 : ℕ) : ℝ)) k := by
    rw [chi2_lambda, hxb, specLambda]
  have hgetni : ∀ i, i < k →
      (chi2_ni bins counts).getD i 0 =
        specNi (fun j => bins.getD j 0) (fun j => ((counts.getD j 0 : ℕ) : ℝ)) k i := by
    intro i hi
    rw [chi2_ni,
      list_getD_map (fun p => p * (chi2_n counts : ℝ)) (chi2_p bins counts)
        i (hp ▸ hi) 0 0,
      chi2_p,
      list_getD_zipWith (fun a b => exp_prob (chi2_lambda bins counts) a b)
        bins bins.tail i (by omega) (hbt ▸ hi) 0 0 0,
      list_getD_tail]
    simp only [specNi, exp_prob]
    rw [hlam, hnum]
    ring
  rw [chi2_exp]
  simp only
  rw [list_sum_getD, hk, specChi2]
  refine Finset.sum_congr rfl ?_
  intro i hi
  have hik : i < k := Finset.mem_range.1 hi
  rw [chi2_k,
    list_getD_zipWith (fun d2 ni => d2 / ni) (chi2_delta_n2 bins counts)
      (chi2_ni bins counts) i (hd2 ▸ hik) (hni ▸ hik) 0 0 0,
    chi2_delta_n2,
    list_getD_map (fun d => d ^ 2) (chi2_delta_n bins counts) i
      (hd ▸ hik) 0 0,
    chi2_delta_n,
    list_getD_zipWith (fun c ni => c - ni) (counts.map (Nat.cast : ℕ → ℝ))
      (chi2_ni bins counts) i (hcl ▸ hik) (hni ▸ hik) 0 0 0,
    hclg i hik, hgetni i hik]

/-- Witness for `chi2_exp_matches_spec` on the spec's deterministic edge
scenario: edges `[1, 2, 3, 4]`, counts `[4, 3, 2]`. -/
theorem chi2_exp_matches_spec_witness :
    (chi2_exp [(1:ℝ), 2, 3, 4] [4, 3, 2]).1 =
      specChi2 (fun i => ([(1:ℝ), 2, 3, 4]).getD i 0)
        (fun i => (([4, 3, 2] : List ℕ).getD i 0 : ℝ)) 3 :=
  chi2_exp_matches_spec [(1:ℝ), 2, 3, 4] [4, 3, 2] 3 rfl rfl
    (by norm_num [List.chain'_cons]) (by norm_num [List.sum_cons])

/-- C7 counterexample: `chi2_exp` is defined (no division by zero occurs:
the single expected count is nonzero) on edges `[-2, -1]` with count
`[1]`, yet its statistic is negative: the fitted rate is `-2/3 < 0`, so
the expected count `exp(-4/3) - exp(-2/3)` is negative and the single
chi-square contribution is negative. -/
theorem chi2_exp_negative_statistic : (chi2_exp [(-2:ℝ), -1] [1]).1 < 0 := by
  have hlam : chi2_lambda [(-2:ℝ), -1] [1] = -(2/3) := by
    norm_num [chi2_lambda, chi2_xb, chi2_values, chi2_n]
  have hni : chi2_ni [(-2:ℝ), -1] [1] =
      [Real.exp (-(4/3)) - Real.exp (-(2/3))] := by
    simp only [chi2_ni, chi2_p, exp_prob, hlam, chi2_n]
    norm_num
  have hE : Real.exp (-(4/3)) - Real.exp (-(2/3)) < 0 := by
    have : Real.exp (-(4/3)) < Real.exp (-(2/3)) :=
      Real.exp_lt_exp.2 (by norm_num)
    linarith
  have hstat : (chi2_exp [(-2:ℝ), -1] [1]).1 =
      ((1:ℝ) - (Real.exp (-(4/3)) - Real.exp (-(2/3)))) ^ 2 /
        (Real.exp (-(4/3)) - Real.exp (-(2/3))) := by
    simp only [chi2_exp, chi2_k, chi2_delta_n2, chi2_delta_n, hni]
    norm_num
  rw [hstat]
  refine div_neg_of_pos_of_neg ?_ hE
  have : (0:ℝ) < 1 - (Real.exp (-(4/3)) - Real.exp (-(2/3))) := by linarith
  positivity

/-- Nonnegativity and the zero characterisation of the chi-square
statistic (spec §8): the statistic is nonnegative and vanishes exactly
when every observed count equals the corresponding expected count. -/
def chi2NonnegOK (bins : List ℝ) (counts : List ℕ) (k : ℕ) : Prop :=
  0 ≤ (chi2_exp bins counts).1 ∧
    ((chi2_exp bins counts).1 = 0 ↔
      ∀ i, i < k →
        ((counts.getD i 0 : ℕ) : ℝ) = (chi2_ni bins counts).getD i 0)

/-- C7 amended: on `k + 1` edges and `k` counts, whenever every expected
count is positive (which is what makes all the per-bin divisions
well-behaved; the claim fails without this restriction, see the
counterexample), the statistic is nonnegative and is zero exactly when
observed equals expected in every bin. -/
theorem chi2_exp_nonneg (bins : List ℝ) (counts : List ℕ) (k : ℕ)
    (hb : bins.length = k + 1) (hc : counts.length = k)
    (hpos : ∀ i, i < k → 0 < (chi2_ni bins counts).getD i 0) :
    chi2NonnegOK bins counts k := by
  have hbt : bins.tail.length = k := by rw [List.length_tail, hb]; omega
  have hcl : (counts.map (Nat.cast : ℕ → ℝ)).length = k := by
    rw [List.length_map, hc]
  have hp : (chi2_p bins counts).length = k := by
    rw [chi2_p, List.length_zipWith, hb, hbt]
    exact min_eq_right (Nat.le_succ k)
  have hni : (chi2_ni bins counts).length = k := by
    rw [chi2_ni, List.length_map, hp]
  have hd : (chi2_delta_n bins counts).length = k := by
    rw [chi2_delta_n, List.length_zipWith, hcl, hni, min_self]
  have hd2 : (chi2_delta_n2 bins counts).length = k := by
    rw [chi2_delta_n2, List.length_map, hd]
  have hk : (chi2_k bins counts).length = k := by
    rw [chi2_k, List.length_zipWith, hd2, hni, min_self]
  have hclg : ∀ i, i < k →
      (counts.map (Nat.cast : ℕ → ℝ)).getD i 0 =
        ((counts.getD i 0 : ℕ) : ℝ) := by
    intro i hi
    exact list_getD_map (Nat.cast : ℕ → ℝ) counts i (hc ▸ hi) 0 0
  have hsum : (chi2_exp bins counts).1 =
      ∑ i ∈ Finset.range k,
        (((counts.getD i 0 : ℕ) : ℝ) - (chi2_ni bins counts).getD i 0) ^ 2 /
          (chi2_ni bins counts).getD i 0 := by
    rw [chi2_exp]
    simp only
    rw [list_sum_getD, hk]
    refine Finset.sum_congr rfl ?_
    intro i hi
    have hik : i < k := Finset.mem_range.1 hi
    rw [chi2_k,
      list_getD_zipWith (fun d2 ni => d2 / ni) (chi2_delta_n2 bins counts)
        (chi2_ni bins counts) i (hd2 ▸ hik) (hni ▸ hik) 0 0 0,
      chi2_delta_n2,
      list_getD_map (fun d => d ^ 2) (chi2_delta_n bins counts) i
        (hd ▸ hik) 0 0,
      chi2_delta_n,
      list_getD_zipWith (fun c ni => c - ni) (counts.map (Nat.cast : ℕ → ℝ))
        (chi2_ni bins counts) i (hcl ▸ hik) (hni ▸ hik) 0 0 0,
      hclg i hik]
  have hterm : ∀ i ∈ Finset.range k,
      0 ≤ (((counts.getD i 0 : ℕ) : ℝ) - (chi2_ni bins counts).getD i 0) ^ 2 /
        (chi2_ni bins counts).getD i 0 := by
    intro i hi
    exact div_nonneg (sq_nonneg _) (le_of_lt (hpos i (Finset.mem_range.1 hi)))
  constructor
  · rw [hsum]
    exact Finset.sum_nonneg hterm
  · rw [hsum, Finset.sum_eq_zero_iff_of_nonneg hterm]
    constructor
    · intro h i hik
      have hi0 := h i (Finset.mem_range.2 hik)
      have hne : (chi2_ni bins counts).getD i 0 ≠ 0 := (hpos i hik).ne'
      rcases div_eq_zero_iff.1 hi0 with h2 | h2
      · exact sub_eq_zero.1 ((pow_eq_zero_iff (two_ne_zero)).1 h2)
      · exact absurd h2 hne
    · intro h i hi
      rw [h i (Finset.mem_range.1 hi)]
      simp

/-- Witness for `chi2_exp_nonneg` on edges `[0, 1]` with count `[2]`:
fitted rate `2`, expected count `(1 - exp(-2)) * 2 > 0`. -/
theorem chi2_exp_nonneg_witness : chi2NonnegOK [(0:ℝ), 1] [2] 1 := by
  refine chi2_exp_nonneg [(0:ℝ), 1] [2] 1 rfl rfl ?_
  have hlam : chi2_lambda [(0:ℝ), 1] [2] = 2 := by
    norm_num [chi2_lambda, chi2_xb, chi2_values, chi2_n]
  have hni : chi2_ni [(0:ℝ), 1] [2] = [(1 - Real.exp (-2)) * 2] := by
    simp only [chi2_ni, chi2_p, exp_prob, hlam, chi2_n]
    norm_num [Real.exp_zero]
  intro i hi
  obtain rfl : i = 0 := by omega
  rw [hni]
  simp only [List.getD_cons_zero]
  have : Real.exp (-2) < 1 := Real.exp_lt_one_iff.2 (by norm_num)
  nlinarith

/-- Edge count of the validator's histogram (source cell 6, `chi2_test`):
`int(1 + np.log2(len(intervals)))`; `int` truncates, and the argument is
nonnegative for a nonempty gap list, so it is a floor. -/
def num_bin_edges (ngaps : ℕ) : ℕ :=
  (⌊(1 : ℝ) + Real.logb 2 (ngaps : ℝ)⌋).toNat

/-- `np.linspace(start, stop, num)` (used in `chi2_test`, source cell 6):
`num` points `start + (stop - start) * i / (num - 1)`; in exact real
arithmetic the last point is exactly `stop`. -/
def linspace (start stop : ℝ) (num : ℕ) : List ℝ :=
  (List.range num).map
    (fun (i : ℕ) => start + (stop - start) * (i : ℝ) / ((num : ℝ) - 1))

/-- `np.min` on a gap array; the empty case never occurs in `chi2_test`
(numpy raises there) and is given an arbitrary value. -/
def listMin : List ℝ → ℝ
  | [] => 0
  | a :: l => l.foldl min a

/-- `np.max` on a gap array; empty case as in `listMin`. -/
def listMax : List ℝ → ℝ
  | [] => 0
  | a :: l => l.foldl max a

/-- `b = np.linspace(np.floor(intervals.min()), np.ceil(intervals.max()),
int(1 + np.log2(len(intervals))))` in `chi2_test` (source cell 6). -/
def chi2_test_bins (gaps : List ℝ) : List ℝ :=
  linspace (⌊listMin gaps⌋ : ℝ) (⌈listMax gaps⌉ : ℝ)
    (num_bin_edges gaps.length)

/-- `np.histogram(data, bins=edges)`: one count per adjacent edge pair,
half-open bins except the last, which also includes its right edge. -/
def histogram (data : List ℝ) (edges : List ℝ) : List ℕ :=
  (List.range (edges.length - 1)).map (fun i =>
    data.countP (fun x =>
      if i + 2 = edges.length then
        decide (edges.getD i 0 ≤ x ∧ x ≤ edges.getD (i + 1) 0)
      else
        decide (edges.getD i 0 ≤ x ∧ x < edges.getD (i + 1) 0)))

/-- `c, _ = np.histogram(intervals, bins=b)` in `chi2_test`
(source cell 6). -/
def chi2_test_counts (gaps : List ℝ) : List ℕ :=
  histogram gaps (chi2_test_bins gaps)

lemma linspace_length (start stop : ℝ) (num : ℕ) :
    (linspace start stop num).length = num := by
  rw [linspace, List.length_map, List.length_range]

lemma linspace_getD (start stop : ℝ) (num i : ℕ) (h : i < num) :
    (linspace start stop num).getD i 0 =
      start + (stop - start) * i / ((num : ℝ) - 1) := by
  rw [linspace,
    list_getD_map _ (List.range num) i (by simpa using h) 0 0]
  congr 2
  rw [List.getD_eq_getElem _ _ (by simpa using h)]
  simp

/-- C4 counterexample: on the one-gap list `[5/2]` the edge count
`int(1 + log2(1))` is `1`, so the edge list is the single point
`[floor(5/2)] = [2]`, whose last element stays strictly below
`ceil(5/2) = 3`: the edges do not span `[floor(min), ceil(max)]`. -/
theorem chi2_test_bins_single_gap :
    (chi2_test_bins [(5:ℝ)/2]).getD
        ((chi2_test_bins [(5:ℝ)/2]).length - 1) 0 <
      (⌈listMax [(5:ℝ)/2]⌉ : ℝ) := by
  have hmin : listMin [(5:ℝ)/2] = 5/2 := rfl
  have hmax : listMax [(5:ℝ)/2] = 5/2 := rfl
  have hm : num_bin_edges ([(5:ℝ)/2]).length = 1 := by
    rw [List.length_singleton, num_bin_edges]
    norm_num [Real.logb_one]
  have hfloor : (⌊listMin [(5:ℝ)/2]⌋ : ℤ) = 2 := by
    rw [hmin]; norm_num
  have hceil : (⌈listMax [(5:ℝ)/2]⌉ : ℤ) = 3 := by
    rw [hmax, Int.ceil_eq_iff]
    norm_num
  have hbins : chi2_test_bins [(5:ℝ)/2] = [2] := by
    rw [chi2_test_bins, hm, hfloor, hceil]
    have h1 : List.range 1 = [0] := by simp [List.range_succ]
    rw [linspace, h1]
    norm_num
  rw [hbins, hceil]
  norm_num

/-- Shape of a `linspace` edge list spanning `[lo, hi]` with `m` points:
`m` edges, first edge `lo`, last edge `hi`, constant spacing
`(hi - lo) / (m - 1)`. -/
def linspaceSpanOK (lo hi : ℝ) (m : ℕ) (b : List ℝ) : Prop :=
  b.length = m ∧ b.getD 0 0 = lo ∧ b.getD (m - 1) 0 = hi ∧
    ∀ i, i + 1 < m →
      b.getD (i + 1) 0 - b.getD i 0 = (hi - lo) / ((m : ℝ) - 1)

/-- C4 amended: for every gap sequence with at least two gaps, the
validator's edge list has `int(1 + log2(n_gaps)) ≥ 2` equally spaced
points running from `floor(min gap)` to `ceil(max gap)`, and the gaps are
binned into one fewer bins than that edge count (the spec's
"number of bins = 1 + log2(number of gaps)" names the edge count); with
exactly one gap the single edge does not span the interval, see the
counterexample. -/
theorem chi2_test_binning (gaps : List ℝ) (h2 : 2 ≤ gaps.length) :
    2 ≤ num_bin_edges gaps.length ∧
      linspaceSpanOK (⌊listMin gaps⌋ : ℝ) (⌈listMax gaps⌉ : ℝ)
        (num_bin_edges gaps.length) (chi2_test_bins gaps) ∧
      (chi2_test_counts gaps).length = num_bin_edges gaps.length - 1 := by
  set n := gaps.length with hn
  set m := num_bin_edges n with hm
  have hm2 : 2 ≤ m := by
    rw [hm, num_bin_edges]
    have hcast : (2 : ℝ) ≤ (n : ℝ) := by exact_mod_cast h2
    have hlogb : (1 : ℝ) ≤ Real.logb 2 (n : ℝ) := by
      have := Real.logb_le_logb_of_le (by norm_num : (1:ℝ) < 2)
        (by norm_num : (0:ℝ) < 2) hcast
      rwa [Real.logb_self_eq_one (by norm_num)] at this
    have hfl : (2 : ℤ) ≤ ⌊(1 : ℝ) + Real.logb 2 (n : ℝ)⌋ := by
      rw [Int.le_floor]
      push_cast
      linarith
    omega
  have hx : ((m : ℝ) - 1) ≠ 0 := by
    have : (2 : ℝ) ≤ (m : ℝ) := by exact_mod_cast hm2
    linarith
  set lo : ℝ := (⌊listMin gaps⌋ : ℝ) with hlo
  set hi : ℝ := (⌈listMax gaps⌉ : ℝ) with hhi
  have hbins : chi2_test_bins gaps = linspace lo hi m := rfl
  refine ⟨hm2, ⟨?_, ?_, ?_, ?_⟩, ?_⟩
  · rw [hbins, linspace_length]
  · rw [hbins, linspace_getD lo hi m 0 (by omega)]
    norm_num
  · rw [hbins, linspace_getD lo hi m (m - 1) (by omega)]
    have hcast : ((m - 1 : ℕ) : ℝ) = (m : ℝ) - 1 := by
      have : 1 ≤ m := by omega
      push_cast [this]
      ring
    rw [hcast, mul_div_assoc, div_self hx]
    ring
  · intro i hi1
    rw [hbins, linspace_getD lo hi m (i + 1) (by omega),
      linspace_getD lo hi m i (by omega)]
    push_cast
    field_simp
    ring
  · rw [chi2_test_counts, histogram, List.length_map, List.length_range,
      hbins, linspace_length]

/-- Witness for `chi2_test_binning` on the two-gap list `[1/2, 3/2]`. -/
theorem chi2_test_binning_witness :
    2 ≤ num_bin_edges ([(1:ℝ)/2, 3/2]).length ∧
      linspaceSpanOK (⌊listMin [(1:ℝ)/2, 3/2]⌋ : ℝ)
        (⌈listMax [(1:ℝ)/2, 3/2]⌉ : ℝ)
        (num_bin_edges ([(1:ℝ)/2, 3/2]).length)
        (chi2_test_bins [(1:ℝ)/2, 3/2]) ∧
      (chi2_test_counts [(1:ℝ)/2, 3/2]).length =
        num_bin_edges ([(1:ℝ)/2, 3/2]).length - 1 :=
  chi2_test_binning [(1:ℝ)/2, 3/2] (by norm_num)
